import Mathlib

/-!
Verification of `src/pow.rs` (num-traits): exponentiation by squaring.

The source is generic over a type `T` with `Clone + One + Mul` (for `pow`)
or `Clone + One + CheckedMul` (for `checked_pow`).  We embed such a type
as a carrier `α` together with a record of the operations the source
requires.  Machine integers are embedded as `Nat` (unsigned, wrapping
multiplication is `fun a b => a * b % 2 ^ N`) and `Int` (signed two's
complement, wrapping via `wrapS`); checked multiplication returns
`Option` exactly when the mathematical product is representable.
`usize` exponents are embedded as `Nat`.
-/

namespace NumTraits

/-- The operations `pow` requires of its type parameter `T`:
`One::one` and `Mul::mul`.  (`Clone` is the identity in a value model.) -/
structure PowOps (α : Type) where
  one : α
  mul : α → α → α

/-- The operations `checked_pow` requires of its type parameter `T`:
`One::one` and `CheckedMul::checked_mul`. -/
structure CheckedPowOps (α : Type) where
  one : α
  checkedMul : α → α → Option α

/-- First loop of `pow`: `while exp & 1 == 0 { base = base.clone() * base; exp >>= 1; }`.
The loop is only reached with `exp != 0` (the `exp == 0` case returned
earlier), which the `0 < exp` conjunct records; `exp & 1 == 0` is `exp % 2 = 0`
and `exp >>= 1` is `exp / 2`. -/
def stripZeros {α : Type} (mul : α → α → α) (base : α) (exp : Nat) : α × Nat :=
  if h : exp % 2 = 0 ∧ 0 < exp then
    stripZeros mul (mul base base) (exp / 2)
  else
    (base, exp)
termination_by exp
decreasing_by exact Nat.div_lt_self h.2 one_lt_two

/-- Second loop of `pow`:
`while exp > 1 { exp >>= 1; base = base.clone() * base; if exp & 1 == 1 { acc = acc * base.clone(); } }`. -/
def accLoop {α : Type} (mul : α → α → α) (base acc : α) (exp : Nat) : α :=
  if h : 1 < exp then
    let exp2 := exp / 2
    let base2 := mul base base
    accLoop mul base2 (if exp2 % 2 = 1 then mul acc base2 else acc) exp2
  else acc
termination_by exp
decreasing_by exact Nat.div_lt_self (Nat.lt_of_lt_of_le Nat.zero_lt_one (Nat.le_of_lt h)) one_lt_two

/-- Embeds `pub fn pow<T: Clone + One + Mul<T, Output = T>>(mut base: T, mut exp: usize) -> T`. -/
def pow {α : Type} (ops : PowOps α) (base : α) (exp : Nat) : α :=
  if exp = 0 then ops.one
  else
    let p := stripZeros ops.mul base exp
    if p.2 = 1 then p.1
    else accLoop ops.mul p.1 p.1 p.2

/-- First loop of `checked_pow`, with `optry!(base.checked_mul(&base))`. -/
def checkedStrip {α : Type} (cmul : α → α → Option α) (base : α) (exp : Nat) :
    Option (α × Nat) :=
  if h : exp % 2 = 0 ∧ 0 < exp then
    match cmul base base with
    | none => none
    | some b2 => checkedStrip cmul b2 (exp / 2)
  else
    some (base, exp)
termination_by exp
decreasing_by exact Nat.div_lt_self h.2 one_lt_two

/-- Second loop of `checked_pow`: each multiplication goes through `optry!`. -/
def checkedAccLoop {α : Type} (cmul : α → α → Option α) (base acc : α) (exp : Nat) :
    Option α :=
  if h : 1 < exp then
    match cmul base base with
    | none => none
    | some base2 =>
      match (if exp / 2 % 2 = 1 then cmul acc base2 else some acc) with
      | none => none
      | some acc2 => checkedAccLoop cmul base2 acc2 (exp / 2)
  else some acc
termination_by exp
decreasing_by exact Nat.div_lt_self (Nat.lt_of_lt_of_le Nat.zero_lt_one (Nat.le_of_lt h)) one_lt_two

/-- Embeds `pub fn checked_pow<T: Clone + One + CheckedMul>(mut base: T, mut exp: usize) -> Option<T>`. -/
def checked_pow {α : Type} (ops : CheckedPowOps α) (base : α) (exp : Nat) : Option α :=
  if exp = 0 then some ops.one
  else
    match checkedStrip ops.checkedMul base exp with
    | none => none
    | some p =>
      if p.2 = 1 then some p.1
      else checkedAccLoop ops.checkedMul p.1 p.1 p.2

/-- The iterative product of `b` taken `e` times (the spec's reference
semantics for `pow`): `one` for `e = 0`, otherwise `(...((b*b)*b)...)*b`. -/
def iterMul {α : Type} (ops : PowOps α) (b : α) : Nat → α
  | 0 => ops.one
  | n + 1 => ops.mul (iterMul ops b n) b

/-! ### Concrete integer semantics -/

/-- Exact (unbounded) natural-number arithmetic: the "exact arithmetic"
reading of `Mul`/`One`. -/
def natOps : PowOps Nat := ⟨1, fun a b => a * b⟩

/-- Exact (unbounded) integer arithmetic. -/
def intOps : PowOps Int := ⟨1, fun a b => a * b⟩

/-- The `N`-bit unsigned wrapping semantics (`Wrapping<uN>`, or `uN` under
wraparound overflow): values are residues `< 2 ^ N`, multiplication is
taken modulo `2 ^ N`. -/
def wuOps (N : Nat) : PowOps Nat := ⟨1 % 2 ^ N, fun a b => a * b % 2 ^ N⟩

/-- Two's-complement wrap of an integer into `[-2^(N-1), 2^(N-1))`. -/
def wrapS (N : Nat) (x : Int) : Int := (x + 2 ^ (N - 1)) % 2 ^ N - 2 ^ (N - 1)

/-- Predicate: `x` is representable as an `N`-bit two's-complement signed integer. -/
def inRangeS (N : Nat) (x : Int) : Prop := -(2 ^ (N - 1)) ≤ x ∧ x < 2 ^ (N - 1)

instance (N : Nat) (x : Int) : Decidable (inRangeS N x) := by
  unfold inRangeS; infer_instance

/-- The `N`-bit signed wrapping semantics (`Wrapping<iN>`, or `iN` under
wraparound overflow). -/
def wsOps (N : Nat) : PowOps Int := ⟨wrapS N 1, fun a b => wrapS N (a * b)⟩

/-- Embeds `uN::checked_mul`: the product iff it is representable in `N` unsigned bits. -/
def cmulU (M : Nat) (a b : Nat) : Option Nat :=
  if a * b < M then some (a * b) else none

/-- The `checked_pow` operations for `uN`. -/
def cuOps (N : Nat) : CheckedPowOps Nat := ⟨1, cmulU (2 ^ N)⟩

/-- Embeds `iN::checked_mul`: the product iff it is representable in `N` signed bits. -/
def cmulS (N : Nat) (a b : Int) : Option Int :=
  if -(2 ^ (N - 1)) ≤ a * b ∧ a * b < 2 ^ (N - 1) then some (a * b) else none

/-- The `checked_pow` operations for `iN`. -/
def csOps (N : Nat) : CheckedPowOps Int := ⟨1, cmulS N⟩

/-! ### Generic correctness of the squaring loops

The source's `pow` is generic over any `T : One + Mul`.  The correctness
statement needs the monoid laws, and for fixed-width carriers they only
hold on the representable values, so we phrase them relative to a
predicate `P` closed under the operations. -/

/-- The monoid laws for `ops`, restricted to the values satisfying `P`. -/
structure MonoidOn {α : Type} (ops : PowOps α) (P : α → Prop) : Prop where
  one_mem : P ops.one
  mul_mem : ∀ a b, P a → P b → P (ops.mul a b)
  assoc : ∀ a b c, P a → P b → P c → ops.mul (ops.mul a b) c = ops.mul a (ops.mul b c)
  one_mul : ∀ a, P a → ops.mul ops.one a = a
  mul_one : ∀ a, P a → ops.mul a ops.one = a

theorem iterMul_mem {α : Type} {ops : PowOps α} {P : α → Prop} (hM : MonoidOn ops P)
    (b : α) (hb : P b) : ∀ n, P (iterMul ops b n)
  | 0 => hM.one_mem
  | n + 1 => hM.mul_mem _ _ (iterMul_mem hM b hb n) hb

theorem iterMul_succ_left {α : Type} {ops : PowOps α} {P : α → Prop} (hM : MonoidOn ops P)
    (b : α) (hb : P b) : ∀ n, iterMul ops b (n + 1) = ops.mul b (iterMul ops b n)
  | 0 => by
      show ops.mul (iterMul ops b 0) b = ops.mul b (iterMul ops b 0)
      show ops.mul ops.one b = ops.mul b ops.one
      rw [hM.one_mul b hb, hM.mul_one b hb]
  | n + 1 => by
      show ops.mul (iterMul ops b (n + 1)) b = ops.mul b (iterMul ops b (n + 1))
      conv_lhs => rw [iterMul_succ_left hM b hb n]
      rw [hM.assoc b (iterMul ops b n) b hb (iterMul_mem hM b hb n) hb]
      congr 1

theorem iterMul_add {α : Type} {ops : PowOps α} {P : α → Prop} (hM : MonoidOn ops P)
    (b : α) (hb : P b) (m : Nat) :
    ∀ n, iterMul ops b (m + n) = ops.mul (iterMul ops b m) (iterMul ops b n)
  | 0 => by
      show iterMul ops b m = ops.mul (iterMul ops b m) ops.one
      rw [hM.mul_one _ (iterMul_mem hM b hb m)]
  | n + 1 => by
      show ops.mul (iterMul ops b (m + n)) b = _
      rw [iterMul_add hM b hb m n]
      rw [hM.assoc _ _ b (iterMul_mem hM b hb m) (iterMul_mem hM b hb n) hb]
      rfl

theorem iterMul_two {α : Type} {ops : PowOps α} {P : α → Prop} (hM : MonoidOn ops P)
    (b : α) (hb : P b) : iterMul ops b 2 = ops.mul b b := by
  show ops.mul (ops.mul ops.one b) b = ops.mul b b
  rw [hM.one_mul b hb]

theorem iterMul_sq {α : Type} {ops : PowOps α} {P : α → Prop} (hM : MonoidOn ops P)
    (b : α) (hb : P b) : ∀ n, iterMul ops (ops.mul b b) n = iterMul ops b (2 * n)
  | 0 => rfl
  | n + 1 => by
      show ops.mul (iterMul ops (ops.mul b b) n) (ops.mul b b) = _
      rw [iterMul_sq hM b hb n]
      have h2 : 2 * (n + 1) = 2 * n + 2 := by omega
      rw [h2, iterMul_add hM b hb (2 * n) 2, iterMul_two hM b hb]

theorem stripZeros_spec {α : Type} {ops : PowOps α} {P : α → Prop} (hM : MonoidOn ops P) :
    ∀ e, 0 < e → ∀ base, P base →
      P (stripZeros ops.mul base e).1 ∧
      iterMul ops (stripZeros ops.mul base e).1 (stripZeros ops.mul base e).2 =
        iterMul ops base e ∧
      0 < (stripZeros ops.mul base e).2 ∧ (stripZeros ops.mul base e).2 % 2 = 1 := by
  intro e
  induction e using Nat.strong_induction_on with
  | _ e ih =>
    intro he base hb
    rw [stripZeros]
    by_cases hc : e % 2 = 0 ∧ 0 < e
    · rw [dif_pos hc]
      have hdiv : e / 2 < e := Nat.div_lt_self he one_lt_two
      have hpos : 0 < e / 2 := by omega
      have hb2 : P (ops.mul base base) := hM.mul_mem _ _ hb hb
      obtain ⟨h1, h2, h3, h4⟩ := ih (e / 2) hdiv hpos (ops.mul base base) hb2
      refine ⟨h1, ?_, h3, h4⟩
      rw [h2, iterMul_sq hM base hb (e / 2)]
      congr 1
      omega
    · rw [dif_neg hc]
      exact ⟨hb, rfl, by omega, by omega⟩

theorem accLoop_spec {α : Type} {ops : PowOps α} {P : α → Prop} (hM : MonoidOn ops P) :
    ∀ e, 0 < e → ∀ base acc, P base → P acc →
      accLoop ops.mul base acc e = ops.mul acc (iterMul ops base (e - e % 2)) := by
  intro e
  induction e using Nat.strong_induction_on with
  | _ e ih =>
    intro he base acc hb ha
    rw [accLoop]
    by_cases hc : 1 < e
    · rw [dif_pos hc]
      show accLoop ops.mul (ops.mul base base)
          (if e / 2 % 2 = 1 then ops.mul acc (ops.mul base base) else acc) (e / 2) = _
      have hdiv : e / 2 < e := by omega
      have hpos : 0 < e / 2 := by omega
      have hb2 : P (ops.mul base base) := hM.mul_mem _ _ hb hb
      by_cases hodd : e / 2 % 2 = 1
      · rw [if_pos hodd]
        rw [ih (e / 2) hdiv hpos (ops.mul base base) (ops.mul acc (ops.mul base base))
          hb2 (hM.mul_mem _ _ ha hb2)]
        rw [iterMul_sq hM base hb]
        rw [hM.assoc acc (ops.mul base base) _ ha hb2
          (iterMul_mem hM base hb _)]
        congr 1
        rw [← iterMul_two hM base hb, ← iterMul_add hM base hb]
        have h2 : 2 + 2 * (e / 2 - e / 2 % 2) = e - e % 2 := by omega
        rw [h2]
      · rw [if_neg hodd]
        rw [ih (e / 2) hdiv hpos (ops.mul base base) acc hb2 ha]
        rw [iterMul_sq hM base hb]
        have h2 : 2 * (e / 2 - e / 2 % 2) = e - e % 2 := by omega
        rw [h2]
    · rw [dif_neg hc]
      have he1 : e = 1 := by omega
      subst he1
      show acc = ops.mul acc (iterMul ops base 0)
      show acc = ops.mul acc ops.one
      rw [hM.mul_one acc ha]

/-- Theorem: `pow` computes the iterated product, for any operations satisfying the
monoid laws on a predicate `P` that contains the base. -/
theorem pow_eq_iterMul_on {α : Type} {ops : PowOps α} {P : α → Prop} (hM : MonoidOn ops P)
    (b : α) (hb : P b) (e : Nat) : pow ops b e = iterMul ops b e := by
  unfold pow
  by_cases he : e = 0
  · subst he; rfl
  · rw [if_neg he]
    have hpos : 0 < e := Nat.pos_of_ne_zero he
    obtain ⟨h1, h2, h3, h4⟩ := stripZeros_spec hM e hpos b hb
    by_cases hone : (stripZeros ops.mul b e).2 = 1
    · simp only [hone, if_pos]
      rw [← h2, hone]
      show _ = ops.mul (iterMul ops (stripZeros ops.mul b e).1 0) (stripZeros ops.mul b e).1
      show _ = ops.mul ops.one (stripZeros ops.mul b e).1
      rw [hM.one_mul _ h1]
    · simp only [hone, if_neg, if_false]
      rw [accLoop_spec hM (stripZeros ops.mul b e).2 h3 (stripZeros ops.mul b e).1
        (stripZeros ops.mul b e).1 h1 h1]
      rw [← h2]
      have hsub : (stripZeros ops.mul b e).2 - (stripZeros ops.mul b e).2 % 2 =
          (stripZeros ops.mul b e).2 - 1 := by omega
      rw [hsub]
      rw [← iterMul_succ_left hM _ h1]
      congr 1
      omega

/-! ### The concrete semantics satisfy the monoid laws -/

theorem natOps_monoid : MonoidOn natOps (fun _ => True) :=
  ⟨trivial, fun _ _ _ _ => trivial, fun a b c _ _ _ => Nat.mul_assoc a b c,
   fun a _ => Nat.one_mul a, fun a _ => Nat.mul_one a⟩

theorem intOps_monoid : MonoidOn intOps (fun _ => True) :=
  ⟨trivial, fun _ _ _ _ => trivial, fun a b c _ _ _ => Int.mul_assoc a b c,
   fun a _ => Int.one_mul a, fun a _ => Int.mul_one a⟩

theorem iterMul_natOps (b : Nat) : ∀ e, iterMul natOps b e = b ^ e
  | 0 => rfl
  | n + 1 => by
      show iterMul natOps b n * b = b ^ (n + 1)
      rw [iterMul_natOps b n, pow_succ]

theorem iterMul_intOps (b : Int) : ∀ e, iterMul intOps b e = b ^ e
  | 0 => rfl
  | n + 1 => by
      show iterMul intOps b n * b = b ^ (n + 1)
      rw [iterMul_intOps b n, pow_succ]

theorem pow_natOps (b e : Nat) : pow natOps b e = b ^ e :=
  (pow_eq_iterMul_on natOps_monoid b trivial e).trans (iterMul_natOps b e)

theorem pow_intOps (b : Int) (e : Nat) : pow intOps b e = b ^ e :=
  (pow_eq_iterMul_on intOps_monoid b trivial e).trans (iterMul_intOps b e)

theorem wuOps_monoid (N : Nat) : MonoidOn (wuOps N) (fun x => x < 2 ^ N) := by
  have hM : 0 < 2 ^ N := Nat.two_pow_pos N
  refine ⟨Nat.mod_lt _ hM, fun a b _ _ => Nat.mod_lt _ hM, ?_, ?_, ?_⟩
  · intro a b c _ _ _
    show a * b % 2 ^ N * c % 2 ^ N = a * (b * c % 2 ^ N) % 2 ^ N
    rw [Nat.mod_mul_mod, Nat.mul_mod_mod, Nat.mul_assoc]
  · intro a ha
    show 1 % 2 ^ N * a % 2 ^ N = a
    rw [Nat.mod_mul_mod, Nat.one_mul, Nat.mod_eq_of_lt ha]
  · intro a ha
    show a * (1 % 2 ^ N) % 2 ^ N = a
    rw [Nat.mul_mod_mod, Nat.mul_one, Nat.mod_eq_of_lt ha]

theorem iterMul_wuOps (N : Nat) (b : Nat) : ∀ e, iterMul (wuOps N) b e = b ^ e % 2 ^ N
  | 0 => rfl
  | n + 1 => by
      show iterMul (wuOps N) b n * b % 2 ^ N = b ^ (n + 1) % 2 ^ N
      rw [iterMul_wuOps N b n, Nat.mod_mul_mod, pow_succ]

/-- Theorem: `pow` under `N`-bit unsigned wrapping semantics computes the
mathematical power reduced modulo `2 ^ N`. -/
theorem pow_wuOps (N : Nat) (b : Nat) (hb : b < 2 ^ N) (e : Nat) :
    pow (wuOps N) b e = b ^ e % 2 ^ N :=
  (pow_eq_iterMul_on (wuOps_monoid N) b hb e).trans (iterMul_wuOps N b e)

theorem wrapS_emod (N : Nat) (x : Int) : wrapS N x % 2 ^ N = x % 2 ^ N := by
  unfold wrapS
  rw [Int.sub_emod, Int.emod_emod_of_dvd _ dvd_rfl, ← Int.sub_emod,
    add_sub_cancel_right]

theorem wrapS_congr {N : Nat} {x y : Int} (h : x % 2 ^ N = y % 2 ^ N) :
    wrapS N x = wrapS N y := by
  unfold wrapS
  rw [Int.add_emod x, Int.add_emod y, h]

theorem wrapS_mul_left (N : Nat) (x c : Int) :
    wrapS N (wrapS N x * c) = wrapS N (x * c) := by
  refine wrapS_congr ?_
  rw [Int.mul_emod (wrapS N x) c, wrapS_emod, ← Int.mul_emod]

theorem wrapS_mul_right (N : Nat) (a y : Int) :
    wrapS N (a * wrapS N y) = wrapS N (a * y) := by
  refine wrapS_congr ?_
  rw [Int.mul_emod a (wrapS N y), wrapS_emod, ← Int.mul_emod]

theorem two_pow_int (N : Nat) (hN : 0 < N) : (2 : Int) ^ N = 2 * 2 ^ (N - 1) := by
  conv_lhs => rw [show N = N - 1 + 1 by omega]
  rw [pow_succ]
  ring

theorem wrapS_range (N : Nat) (hN : 0 < N) (x : Int) : inRangeS N (wrapS N x) := by
  have hpos : (0 : Int) < 2 ^ N := by positivity
  have h1 : 0 ≤ (x + 2 ^ (N - 1)) % 2 ^ N := Int.emod_nonneg _ (by omega)
  have h2 : (x + 2 ^ (N - 1)) % 2 ^ N < 2 ^ N := Int.emod_lt_of_pos _ hpos
  have h3 := two_pow_int N hN
  unfold inRangeS wrapS
  omega

theorem wrapS_eq_self {N : Nat} (hN : 0 < N) {x : Int} (hx : inRangeS N x) :
    wrapS N x = x := by
  obtain ⟨hlo, hhi⟩ := hx
  have h3 := two_pow_int N hN
  unfold wrapS
  rw [Int.emod_eq_of_lt (by omega) (by omega)]
  omega

theorem wsOps_monoid (N : Nat) (hN : 0 < N) : MonoidOn (wsOps N) (inRangeS N) := by
  refine ⟨wrapS_range N hN 1, fun a b _ _ => wrapS_range N hN _, ?_, ?_, ?_⟩
  · intro a b c _ _ _
    show wrapS N (wrapS N (a * b) * c) = wrapS N (a * wrapS N (b * c))
    rw [wrapS_mul_left, wrapS_mul_right, Int.mul_assoc]
  · intro a ha
    show wrapS N (wrapS N 1 * a) = a
    rw [wrapS_mul_left, Int.one_mul, wrapS_eq_self hN ha]
  · intro a ha
    show wrapS N (a * wrapS N 1) = a
    rw [wrapS_mul_right, Int.mul_one, wrapS_eq_self hN ha]

theorem iterMul_wsOps (N : Nat) (b : Int) : ∀ e, iterMul (wsOps N) b e = wrapS N (b ^ e)
  | 0 => by
      show wrapS N 1 = wrapS N (b ^ 0)
      rw [pow_zero]
  | n + 1 => by
      show wrapS N (iterMul (wsOps N) b n * b) = wrapS N (b ^ (n + 1))
      rw [iterMul_wsOps N b n, wrapS_mul_left, pow_succ]

/-- Theorem: `pow` under `N`-bit two's-complement wrapping semantics computes the
mathematical power reduced modulo `2 ^ N`, reinterpreted as a signed value. -/
theorem pow_wsOps (N : Nat) (hN : 0 < N) (b : Int) (hb : inRangeS N b) (e : Nat) :
    pow (wsOps N) b e = wrapS N (b ^ e) :=
  (pow_eq_iterMul_on (wsOps_monoid N hN) b hb e).trans (iterMul_wsOps N b e)

/-! ### `checked_pow` refines `pow`

`checked_pow` has the same control flow as `pow` with every multiplication
replaced by a checked multiplication; whenever it returns a value, that
value is exactly what `pow` computes with the corresponding unchecked
multiplications. -/

theorem cmulU_eq_some {M a b x : Nat} (h : cmulU M a b = some x) :
    x = a * b ∧ a * b < M := by
  unfold cmulU at h
  split at h
  · exact ⟨(Option.some_inj.mp h).symm, by assumption⟩
  · exact absurd h (by simp)

theorem cmulS_eq_some {N : Nat} {a b x : Int} (h : cmulS N a b = some x) :
    x = a * b ∧ -(2 ^ (N - 1)) ≤ a * b ∧ a * b < 2 ^ (N - 1) := by
  unfold cmulS at h
  split at h
  · exact ⟨(Option.some_inj.mp h).symm, by assumption⟩
  · exact absurd h (by simp)

theorem checkedStrip_refines {α : Type} {cmul : α → α → Option α} {mul : α → α → α}
    (hc : ∀ a b x, cmul a b = some x → x = mul a b) :
    ∀ e b p, checkedStrip cmul b e = some p → stripZeros mul b e = p := by
  intro e
  induction e using Nat.strong_induction_on with
  | _ e ih =>
    intro b p hp
    rw [checkedStrip] at hp
    rw [stripZeros]
    by_cases hcond : e % 2 = 0 ∧ 0 < e
    · rw [dif_pos hcond] at hp
      rw [dif_pos hcond]
      cases hmul : cmul b b with
      | none => rw [hmul] at hp; exact absurd hp (by simp)
      | some b2 =>
        rw [hmul] at hp
        rw [← hc b b b2 hmul]
        exact ih (e / 2) (Nat.div_lt_self hcond.2 one_lt_two) b2 p hp
    · rw [dif_neg hcond] at hp
      rw [dif_neg hcond]
      exact Option.some_inj.mp hp

theorem checkedAccLoop_refines {α : Type} {cmul : α → α → Option α} {mul : α → α → α}
    (hc : ∀ a b x, cmul a b = some x → x = mul a b) :
    ∀ e base acc r, checkedAccLoop cmul base acc e = some r → accLoop mul base acc e = r := by
  intro e
  induction e using Nat.strong_induction_on with
  | _ e ih =>
    intro base acc r hr
    rw [checkedAccLoop] at hr
    rw [accLoop]
    by_cases hcond : 1 < e
    · rw [dif_pos hcond] at hr
      rw [dif_pos hcond]
      show accLoop mul (mul base base)
          (if e / 2 % 2 = 1 then mul acc (mul base base) else acc) (e / 2) = r
      cases hmul : cmul base base with
      | none => rw [hmul] at hr; exact absurd hr (by simp)
      | some base2 =>
        rw [hmul] at hr
        have hr2 : (match (if e / 2 % 2 = 1 then cmul acc base2 else some acc) with
            | none => none
            | some acc2 => checkedAccLoop cmul base2 acc2 (e / 2)) = some r := hr
        have hb2 : base2 = mul base base := hc base base base2 hmul
        have hdiv : e / 2 < e := by omega
        by_cases hodd : e / 2 % 2 = 1
        · rw [if_pos hodd] at hr2
          cases hacc : cmul acc base2 with
          | none => rw [hacc] at hr2; exact absurd hr2 (by simp)
          | some acc2 =>
            rw [hacc] at hr2
            have ha2 : acc2 = mul acc base2 := hc acc base2 acc2 hacc
            rw [if_pos hodd, ← hb2, ← ha2]
            exact ih (e / 2) hdiv base2 acc2 r hr2
        · rw [if_neg hodd] at hr2
          rw [if_neg hodd, ← hb2]
          exact ih (e / 2) hdiv base2 acc r hr2
    · rw [dif_neg hcond] at hr
      rw [dif_neg hcond]
      exact Option.some_inj.mp hr

/-- Refinement: whatever value `checked_pow` returns is the value `pow`
computes with the corresponding unchecked multiplications. -/
theorem checked_pow_refines {α : Type} (cops : CheckedPowOps α) (ops : PowOps α)
    (hone : cops.one = ops.one)
    (hc : ∀ a b x, cops.checkedMul a b = some x → x = ops.mul a b) :
    ∀ b e r, checked_pow cops b e = some r → pow ops b e = r := by
  intro b e r h
  unfold checked_pow at h
  unfold pow
  by_cases he : e = 0
  · rw [if_pos he] at h
    rw [if_pos he, hone] at *
    exact (Option.some_inj.mp h)
  · rw [if_neg he] at h
    rw [if_neg he]
    cases hstrip : checkedStrip cops.checkedMul b e with
    | none => rw [hstrip] at h; exact absurd h (by simp)
    | some p =>
      rw [hstrip] at h
      have h2 : (if p.2 = 1 then some p.1
          else checkedAccLoop cops.checkedMul p.1 p.1 p.2) = some r := h
      have hs := checkedStrip_refines hc e b p hstrip
      show (if (stripZeros ops.mul b e).2 = 1 then (stripZeros ops.mul b e).1
        else accLoop ops.mul (stripZeros ops.mul b e).1 (stripZeros ops.mul b e).1
          (stripZeros ops.mul b e).2) = r
      rw [hs]
      by_cases hone1 : p.2 = 1
      · rw [if_pos hone1] at h2
        rw [if_pos hone1]
        exact Option.some_inj.mp h2
      · rw [if_neg hone1] at h2
        rw [if_neg hone1]
        exact checkedAccLoop_refines hc p.2 p.1 p.1 r h2

/-- Soundness of `checked_pow` for `N`-bit unsigned checked multiplication:
a returned value is the exact mathematical power. -/
theorem checked_pow_cu_sound {N b e r : Nat} (h : checked_pow (cuOps N) b e = some r) :
    r = b ^ e := by
  have := checked_pow_refines (cuOps N) natOps rfl
    (fun a b x hx => (cmulU_eq_some hx).1) b e r h
  rw [pow_natOps] at this
  exact this.symm

/-- Soundness of `checked_pow` for `N`-bit signed checked multiplication:
a returned value is the exact mathematical power. -/
theorem checked_pow_cs_sound {N : Nat} {b : Int} {e : Nat} {r : Int}
    (h : checked_pow (csOps N) b e = some r) : r = b ^ e := by
  have := checked_pow_refines (csOps N) intOps rfl
    (fun a b x hx => (cmulS_eq_some hx).1) b e r h
  rw [pow_intOps] at this
  exact this.symm

/-! ### Completeness of `checked_pow` for unsigned types

If every power of the base with exponent up to `e` is representable, no
intermediate checked multiplication can fail, and `checked_pow` returns
the exact power. -/

theorem cmulU_of_lt {M a b : Nat} (h : a * b < M) : cmulU M a b = some (a * b) := by
  unfold cmulU
  rw [if_pos h]

theorem checkedStrip_cu_complete (M b : Nat) :
    ∀ e, 0 < e → ∀ m, 0 < m → (∀ j, j ≤ m * e → b ^ j < M) →
    ∃ m' e', checkedStrip (cmulU M) (b ^ m) e = some (b ^ m', e') ∧
      m' * e' = m * e ∧ 0 < m' ∧ 0 < e' ∧ e' % 2 = 1 := by
  intro e
  induction e using Nat.strong_induction_on with
  | _ e ih =>
    intro he m hm hfit
    rw [checkedStrip]
    by_cases hc : e % 2 = 0 ∧ 0 < e
    · rw [dif_pos hc]
      obtain ⟨q, rfl⟩ : ∃ q, e = 2 * q := ⟨e / 2, by omega⟩
      have hq : 0 < q := by omega
      have hdivq : 2 * q / 2 = q := by omega
      have hprod : b ^ m * b ^ m = b ^ (2 * m) := by
        rw [← pow_add]
        congr 1
        omega
      have hlt : b ^ m * b ^ m < M := by
        rw [hprod]
        exact hfit (2 * m) (by nlinarith)
      rw [cmulU_of_lt hlt, hprod, hdivq]
      have hmul : 2 * m * q = m * (2 * q) := by ring
      obtain ⟨m', e', hstrip, hme, hm', he', hodd⟩ :=
        ih q (by omega) (by omega) (2 * m) (by omega)
          (fun j hj => hfit j (by rw [hmul] at hj; exact hj))
      refine ⟨m', e', hstrip, ?_, hm', he', hodd⟩
      rw [hme, hmul]
    · rw [dif_neg hc]
      exact ⟨m, e, rfl, rfl, hm, he, by omega⟩

theorem checkedAccLoop_cu_complete (M b : Nat) :
    ∀ e, 0 < e → ∀ m k, 0 < m → (∀ j, j ≤ k + m * (e - e % 2) → b ^ j < M) →
    checkedAccLoop (cmulU M) (b ^ m) (b ^ k) e = some (b ^ (k + m * (e - e % 2))) := by
  intro e
  induction e using Nat.strong_induction_on with
  | _ e ih =>
    intro he m k hm hfit
    rw [checkedAccLoop]
    by_cases hc : 1 < e
    · rw [dif_pos hc]
      have hq1 : 0 < e / 2 := by omega
      have hsub2 : 2 ≤ e - e % 2 := by omega
      have hprod : b ^ m * b ^ m = b ^ (2 * m) := by
        rw [← pow_add]
        congr 1
        omega
      have hlt : b ^ m * b ^ m < M := by
        rw [hprod]
        refine hfit (2 * m) ?_
        calc 2 * m = m * 2 := by ring
        _ ≤ m * (e - e % 2) := Nat.mul_le_mul_left m hsub2
        _ ≤ k + m * (e - e % 2) := Nat.le_add_left _ _
      by_cases hodd : e / 2 % 2 = 1
      · -- the low bit of the shifted exponent is set: multiply into the accumulator
        obtain ⟨s, hs⟩ : ∃ s, e / 2 = s + 1 := ⟨e / 2 - 1, by omega⟩
        have hexp : (k + 2 * m) + 2 * m * (e / 2 - e / 2 % 2) = k + m * (e - e % 2) := by
          have h1 : e / 2 - e / 2 % 2 = s := by omega
          have h2 : e - e % 2 = 2 * (s + 1) := by omega
          rw [h1, h2]
          ring
        have hacc : b ^ k * b ^ (2 * m) = b ^ (k + 2 * m) := by rw [← pow_add]
        have hlt2 : b ^ k * b ^ (2 * m) < M := by
          rw [hacc]
          exact hfit (k + 2 * m) (by omega)
        simp only [cmulU_of_lt hlt, hprod, if_pos hodd, cmulU_of_lt hlt2, hacc]
        have hrec := ih (e / 2) (by omega) hq1 (2 * m) (k + 2 * m) (by omega)
          (fun j hj => hfit j (by rw [hexp] at hj; exact hj))
        rw [hexp] at hrec
        exact hrec
      · -- low bit clear: the accumulator is unchanged
        have hexp : k + 2 * m * (e / 2 - e / 2 % 2) = k + m * (e - e % 2) := by
          have h0 : e / 2 % 2 = 0 := by omega
          have h2 : e - e % 2 = 2 * (e / 2) := by omega
          rw [h0, h2, Nat.sub_zero]
          ring
        simp only [cmulU_of_lt hlt, hprod, if_neg hodd]
        have hrec := ih (e / 2) (by omega) hq1 (2 * m) k (by omega)
          (fun j hj => hfit j (by rw [hexp] at hj; exact hj))
        rw [hexp] at hrec
        exact hrec
    · rw [dif_neg hc]
      have he1 : e = 1 := by omega
      subst he1
      norm_num

theorem checked_pow_cu_complete (N b e : Nat) (hN : 0 < N)
    (hfit : ∀ j, j ≤ e → b ^ j < 2 ^ N) :
    checked_pow (cuOps N) b e = some (b ^ e) := by
  unfold checked_pow
  by_cases he : e = 0
  · subst he
    rw [if_pos rfl, pow_zero]
    rfl
  · rw [if_neg he]
    obtain ⟨m', e', hstrip, hme, hm', he', hodd⟩ :=
      checkedStrip_cu_complete (2 ^ N) b e (by omega) 1 one_pos
        (fun j hj => hfit j (by omega))
    rw [pow_one] at hstrip
    rw [mul_comm m' e', one_mul] at hme
    simp only [show (cuOps N).checkedMul = cmulU (2 ^ N) from rfl, hstrip]
    by_cases h1 : e' = 1
    · subst h1
      have hm'e : m' = e := by rw [← hme, one_mul]
      rw [if_pos rfl, hm'e]
    · rw [if_neg h1]
      obtain ⟨t, rfl⟩ : ∃ t, e' = t + 1 := ⟨e' - 1, by omega⟩
      have hexp : m' + m' * (t + 1 - (t + 1) % 2) = e := by
        have ht : t + 1 - (t + 1) % 2 = t := by omega
        rw [ht, ← hme]
        ring
      have hrec := checkedAccLoop_cu_complete (2 ^ N) b (t + 1) (by omega) m' m' hm'
        (fun j hj => hfit j (by rw [hexp] at hj; exact hj))
      rw [hexp] at hrec
      exact hrec

theorem checkedStrip_parity {α : Type} {cmul : α → α → Option α} :
    ∀ e (b : α) p, 0 < e → checkedStrip cmul b e = some p → 0 < p.2 ∧ p.2 % 2 = 1 := by
  intro e
  induction e using Nat.strong_induction_on with
  | _ e ih =>
    intro b p he h
    rw [checkedStrip] at h
    by_cases hc : e % 2 = 0 ∧ 0 < e
    · rw [dif_pos hc] at h
      cases hmul : cmul b b with
      | none => rw [hmul] at h; exact absurd h (by simp)
      | some b2 =>
        rw [hmul] at h
        exact ih (e / 2) (by omega) b2 p (by omega) h
    · rw [dif_neg hc] at h
      rw [← Option.some_inj.mp h]
      exact ⟨he, by omega⟩

theorem checkedStrip_cu_bound {M : Nat} :
    ∀ e b p, checkedStrip (cmulU M) b e = some p → p.1 = b ∨ p.1 < M := by
  intro e
  induction e using Nat.strong_induction_on with
  | _ e ih =>
    intro b p h
    rw [checkedStrip] at h
    by_cases hc : e % 2 = 0 ∧ 0 < e
    · rw [dif_pos hc] at h
      cases hmul : cmulU M b b with
      | none => rw [hmul] at h; exact absurd h (by simp)
      | some b2 =>
        rw [hmul] at h
        have hb2 := cmulU_eq_some hmul
        rcases ih (e / 2) (by omega) b2 p h with h1 | h1
        · right
          rw [h1]
          omega
        · right
          exact h1
    · rw [dif_neg hc] at h
      left
      rw [← Option.some_inj.mp h]

theorem checkedAccLoop_cu_bound {M : Nat} :
    ∀ e, 1 < e → ∀ base acc r, checkedAccLoop (cmulU M) base acc e = some r → r < M := by
  intro e
  induction e using Nat.strong_induction_on with
  | _ e ih =>
    intro he base acc r h
    rw [checkedAccLoop] at h
    rw [dif_pos he] at h
    cases hmul : cmulU M base base with
    | none => rw [hmul] at h; exact absurd h (by simp)
    | some base2 =>
      simp only [hmul] at h
      by_cases hodd : e / 2 % 2 = 1
      · rw [if_pos hodd] at h
        cases hacc : cmulU M acc base2 with
        | none =>
            simp only [hacc] at h
            exact absurd h (by simp)
        | some acc2 =>
          simp only [hacc] at h
          have hacc2 := cmulU_eq_some hacc
          by_cases he2 : 1 < e / 2
          · exact ih (e / 2) (by omega) he2 base2 acc2 r h
          · have h1 : e / 2 = 1 := by omega
            rw [h1, checkedAccLoop, dif_neg (by omega : ¬(1 : Nat) < 1)] at h
            have := Option.some_inj.mp h
            omega
      · rw [if_neg hodd] at h
        have he2 : 1 < e / 2 := by omega
        refine ih (e / 2) (by omega) he2 base2 acc r ?_
        exact h

/-- Full characterisation of `checked_pow` on `N`-bit unsigned integers:
it returns exactly the mathematical power when that power is representable,
and `none` otherwise. -/
theorem checked_pow_cu_char (N b e : Nat) (hN : 0 < N) (hb : b < 2 ^ N) :
    checked_pow (cuOps N) b e = if b ^ e < 2 ^ N then some (b ^ e) else none := by
  by_cases hfit : b ^ e < 2 ^ N
  · rw [if_pos hfit]
    refine checked_pow_cu_complete N b e hN (fun j hj => ?_)
    rcases Nat.lt_or_ge b 2 with hb2 | hb2
    · have hle : b ^ j ≤ 1 ^ j := Nat.pow_le_pow_left (by omega) j
      rw [one_pow] at hle
      have h1 : 1 < 2 ^ N := Nat.one_lt_two_pow_iff.mpr (by omega)
      omega
    · exact Nat.lt_of_le_of_lt (Nat.pow_le_pow_right (by omega) hj) hfit
  · rw [if_neg hfit]
    cases hres : checked_pow (cuOps N) b e with
    | none => rfl
    | some r =>
      exfalso
      have hr : r = b ^ e := checked_pow_cu_sound hres
      unfold checked_pow at hres
      by_cases he : e = 0
      · subst he
        have h1 : 1 < 2 ^ N := Nat.one_lt_two_pow_iff.mpr (by omega)
        rw [pow_zero] at hfit
        omega
      · rw [if_neg he] at hres
        cases hstrip : checkedStrip (cuOps N).checkedMul b e with
        | none => rw [hstrip] at hres; exact absurd hres (by simp)
        | some p =>
          rw [hstrip] at hres
          have hres2 : (if p.2 = 1 then some p.1 else
              checkedAccLoop (cuOps N).checkedMul p.1 p.1 p.2) = some r := hres
          have hpar := checkedStrip_parity e b p (by omega) hstrip
          have hbd : p.1 = b ∨ p.1 < 2 ^ N := checkedStrip_cu_bound e b p hstrip
          by_cases h1 : p.2 = 1
          · rw [if_pos h1] at hres2
            have hp1 : p.1 = r := Option.some_inj.mp hres2
            rcases hbd with h2 | h2
            · -- r = b, but r = b ^ e ≥ 2 ^ N while b < 2 ^ N
              omega
            · omega
          · rw [if_neg h1] at hres2
            have hlt : r < 2 ^ N :=
              checkedAccLoop_cu_bound p.2 (by omega) p.1 p.1 r hres2
            omega

/-! ### Completeness of `checked_pow` for signed types

The same completeness development over `Int` with the two's-complement
range `inRangeS N`.  The interesting point is the asymmetric range: the
final power may be exactly `-2^(N-1)` while intermediate powers are
positive, but for `|b| ≥ 2` every path intermediate `b^j` with `j < e`
satisfies `|b^j| ≤ |b|^e / 2 < 2^(N-1)`, so representability of the final
power still forces representability of every intermediate. -/

theorem cmulS_of_mem {N : Nat} {a b : Int} (h : inRangeS N (a * b)) :
    cmulS N a b = some (a * b) := by
  have h2 : -(2 ^ (N - 1)) ≤ a * b ∧ a * b < 2 ^ (N - 1) := h
  unfold cmulS
  rw [if_pos h2]

theorem checkedStrip_cs_complete (N : Nat) (b : Int) :
    ∀ e, 0 < e → ∀ m, 0 < m → (∀ j, j ≤ m * e → inRangeS N (b ^ j)) →
    ∃ m' e', checkedStrip (cmulS N) (b ^ m) e = some (b ^ m', e') ∧
      m' * e' = m * e ∧ 0 < m' ∧ 0 < e' ∧ e' % 2 = 1 := by
  intro e
  induction e using Nat.strong_induction_on with
  | _ e ih =>
    intro he m hm hfit
    rw [checkedStrip]
    by_cases hc : e % 2 = 0 ∧ 0 < e
    · rw [dif_pos hc]
      obtain ⟨q, rfl⟩ : ∃ q, e = 2 * q := ⟨e / 2, by omega⟩
      have hq : 0 < q := by omega
      have hdivq : 2 * q / 2 = q := by omega
      have hprod : b ^ m * b ^ m = b ^ (2 * m) := by
        rw [← pow_add]
        congr 1
        omega
      have hmem : inRangeS N (b ^ m * b ^ m) := by
        rw [hprod]
        exact hfit (2 * m) (by nlinarith)
      rw [cmulS_of_mem hmem, hprod, hdivq]
      have hmul : 2 * m * q = m * (2 * q) := by ring
      obtain ⟨m', e', hstrip, hme, hm', he', hodd⟩ :=
        ih q (by omega) (by omega) (2 * m) (by omega)
          (fun j hj => hfit j (by rw [hmul] at hj; exact hj))
      refine ⟨m', e', hstrip, ?_, hm', he', hodd⟩
      rw [hme, hmul]
    · rw [dif_neg hc]
      exact ⟨m, e, rfl, rfl, hm, he, by omega⟩

theorem checkedAccLoop_cs_complete (N : Nat) (b : Int) :
    ∀ e, 0 < e → ∀ m k, 0 < m → (∀ j, j ≤ k + m * (e - e % 2) → inRangeS N (b ^ j)) →
    checkedAccLoop (cmulS N) (b ^ m) (b ^ k) e = some (b ^ (k + m * (e - e % 2))) := by
  intro e
  induction e using Nat.strong_induction_on with
  | _ e ih =>
    intro he m k hm hfit
    rw [checkedAccLoop]
    by_cases hc : 1 < e
    · rw [dif_pos hc]
      have hq1 : 0 < e / 2 := by omega
      have hsub2 : 2 ≤ e - e % 2 := by omega
      have hprod : b ^ m * b ^ m = b ^ (2 * m) := by
        rw [← pow_add]
        congr 1
        omega
      have hmem : inRangeS N (b ^ m * b ^ m) := by
        rw [hprod]
        refine hfit (2 * m) ?_
        calc 2 * m = m * 2 := by ring
        _ ≤ m * (e - e % 2) := Nat.mul_le_mul_left m hsub2
        _ ≤ k + m * (e - e % 2) := Nat.le_add_left _ _
      by_cases hodd : e / 2 % 2 = 1
      · obtain ⟨s, hs⟩ : ∃ s, e / 2 = s + 1 := ⟨e / 2 - 1, by omega⟩
        have hexp : (k + 2 * m) + 2 * m * (e / 2 - e / 2 % 2) = k + m * (e - e % 2) := by
          have h1 : e / 2 - e / 2 % 2 = s := by omega
          have h2 : e - e % 2 = 2 * (s + 1) := by omega
          rw [h1, h2]
          ring
        have hacc : b ^ k * b ^ (2 * m) = b ^ (k + 2 * m) := by rw [← pow_add]
        have hmem2 : inRangeS N (b ^ k * b ^ (2 * m)) := by
          rw [hacc]
          exact hfit (k + 2 * m) (by omega)
        simp only [cmulS_of_mem hmem, hprod, if_pos hodd, cmulS_of_mem hmem2, hacc]
        have hrec := ih (e / 2) (by omega) hq1 (2 * m) (k + 2 * m) (by omega)
          (fun j hj => hfit j (by rw [hexp] at hj; exact hj))
        rw [hexp] at hrec
        exact hrec
      · have hexp : k + 2 * m * (e / 2 - e / 2 % 2) = k + m * (e - e % 2) := by
          have h0 : e / 2 % 2 = 0 := by omega
          have h2 : e - e % 2 = 2 * (e / 2) := by omega
          rw [h0, h2, Nat.sub_zero]
          ring
        simp only [cmulS_of_mem hmem, hprod, if_neg hodd]
        have hrec := ih (e / 2) (by omega) hq1 (2 * m) k (by omega)
          (fun j hj => hfit j (by rw [hexp] at hj; exact hj))
        rw [hexp] at hrec
        exact hrec
    · rw [dif_neg hc]
      have he1 : e = 1 := by omega
      subst he1
      norm_num

theorem checked_pow_cs_complete (N : Nat) (b : Int) (e : Nat) (hN : 2 ≤ N)
    (hfit : ∀ j, j ≤ e → inRangeS N (b ^ j)) :
    checked_pow (csOps N) b e = some (b ^ e) := by
  unfold checked_pow
  by_cases he : e = 0
  · subst he
    rw [if_pos rfl, pow_zero]
    rfl
  · rw [if_neg he]
    obtain ⟨m', e', hstrip, hme, hm', he', hodd⟩ :=
      checkedStrip_cs_complete N b e (by omega) 1 one_pos
        (fun j hj => hfit j (by omega))
    rw [pow_one] at hstrip
    rw [mul_comm m' e', one_mul] at hme
    simp only [show (csOps N).checkedMul = cmulS N from rfl, hstrip]
    by_cases h1 : e' = 1
    · subst h1
      have hm'e : m' = e := by rw [← hme, one_mul]
      rw [if_pos rfl, hm'e]
    · rw [if_neg h1]
      obtain ⟨t, rfl⟩ : ∃ t, e' = t + 1 := ⟨e' - 1, by omega⟩
      have hexp : m' + m' * (t + 1 - (t + 1) % 2) = e := by
        have ht : t + 1 - (t + 1) % 2 = t := by omega
        rw [ht, ← hme]
        ring
      have hrec := checkedAccLoop_cs_complete N b (t + 1) (by omega) m' m' hm'
        (fun j hj => hfit j (by rw [hexp] at hj; exact hj))
      rw [hexp] at hrec
      exact hrec

theorem checkedStrip_cs_bound {N : Nat} :
    ∀ e (b : Int) p, checkedStrip (cmulS N) b e = some p → p.1 = b ∨ inRangeS N p.1 := by
  intro e
  induction e using Nat.strong_induction_on with
  | _ e ih =>
    intro b p h
    rw [checkedStrip] at h
    by_cases hc : e % 2 = 0 ∧ 0 < e
    · rw [dif_pos hc] at h
      cases hmul : cmulS N b b with
      | none => rw [hmul] at h; exact absurd h (by simp)
      | some b2 =>
        rw [hmul] at h
        obtain ⟨hx, hlo, hhi⟩ := cmulS_eq_some hmul
        rcases ih (e / 2) (by omega) b2 p h with h1 | h1
        · right
          rw [h1, hx]
          exact ⟨hlo, hhi⟩
        · right
          exact h1
    · rw [dif_neg hc] at h
      left
      rw [← Option.some_inj.mp h]

theorem checkedAccLoop_cs_bound {N : Nat} :
    ∀ e, 1 < e → ∀ (base acc r : Int),
      checkedAccLoop (cmulS N) base acc e = some r → inRangeS N r := by
  intro e
  induction e using Nat.strong_induction_on with
  | _ e ih =>
    intro he base acc r h
    rw [checkedAccLoop] at h
    rw [dif_pos he] at h
    cases hmul : cmulS N base base with
    | none => rw [hmul] at h; exact absurd h (by simp)
    | some base2 =>
      simp only [hmul] at h
      by_cases hodd : e / 2 % 2 = 1
      · rw [if_pos hodd] at h
        cases hacc : cmulS N acc base2 with
        | none =>
            simp only [hacc] at h
            exact absurd h (by simp)
        | some acc2 =>
          simp only [hacc] at h
          obtain ⟨hx, hlo, hhi⟩ := cmulS_eq_some hacc
          by_cases he2 : 1 < e / 2
          · exact ih (e / 2) (by omega) he2 base2 acc2 r h
          · have h1 : e / 2 = 1 := by omega
            rw [h1, checkedAccLoop, dif_neg (by omega : ¬(1 : Nat) < 1)] at h
            have hr := Option.some_inj.mp h
            unfold inRangeS
            omega
      · rw [if_neg hodd] at h
        have he2 : 1 < e / 2 := by omega
        refine ih (e / 2) (by omega) he2 base2 acc r ?_
        exact h

/-- For an in-range signed base, representability of the final power forces
representability of every smaller power (every squaring-path intermediate). -/
theorem cs_fit_all (N : Nat) (hN : 2 ≤ N) (b : Int) (hb : inRangeS N b)
    (e : Nat) (he : inRangeS N (b ^ e)) : ∀ j, j ≤ e → inRangeS N (b ^ j) := by
  have hpow2 : (2 : Int) ≤ 2 ^ (N - 1) := by
    calc (2 : Int) = 2 ^ 1 := (pow_one 2).symm
    _ ≤ 2 ^ (N - 1) := pow_le_pow_right₀ (by norm_num) (by omega)
  intro j hj
  rcases eq_or_lt_of_le hj with rfl | hlt
  · exact he
  · rcases le_or_lt |b| 1 with hb1 | hb1
    · have habs : |b ^ j| ≤ 1 := by
        rw [abs_pow]
        calc |b| ^ j ≤ 1 ^ j := pow_le_pow_left₀ (abs_nonneg b) hb1 j
        _ = 1 := one_pow j
      have h1 := abs_le.mp habs
      unfold inRangeS
      omega
    · have hb2 : (2 : Int) ≤ |b| := by omega
      have hje : j ≤ e - 1 := by omega
      have h1 : |b| ^ j ≤ |b| ^ (e - 1) := pow_le_pow_right₀ (by omega) hje
      have hee : e = (e - 1) + 1 := by omega
      have h2 : 2 * |b| ^ (e - 1) ≤ |b| ^ e := by
        calc 2 * |b| ^ (e - 1) ≤ |b| * |b| ^ (e - 1) :=
              mul_le_mul_of_nonneg_right hb2 (pow_nonneg (abs_nonneg b) _)
        _ = |b| ^ ((e - 1) + 1) := (pow_succ' |b| (e - 1)).symm
        _ = |b| ^ e := by rw [← hee]
      have h3 : |b| ^ e ≤ 2 ^ (N - 1) := by
        rw [← abs_pow]
        exact abs_le.mpr ⟨he.1, le_of_lt he.2⟩
      have h4 : -(|b| ^ (e - 1)) ≤ b ^ j ∧ b ^ j ≤ |b| ^ (e - 1) := by
        refine abs_le.mp ?_
        rw [abs_pow]
        exact h1
      have h5 : (1 : Int) ≤ |b| ^ (e - 1) := by
        calc (1 : Int) = 1 ^ (e - 1) := (one_pow _).symm
        _ ≤ |b| ^ (e - 1) := pow_le_pow_left₀ (by norm_num) (by omega) _
      unfold inRangeS
      omega

/-- Full characterisation of `checked_pow` on `N`-bit signed integers:
it returns exactly the mathematical power when that power is representable,
and `none` otherwise. -/
theorem checked_pow_cs_char (N : Nat) (b : Int) (e : Nat) (hN : 2 ≤ N)
    (hb : inRangeS N b) :
    checked_pow (csOps N) b e =
      if inRangeS N (b ^ e) then some (b ^ e) else none := by
  have hpow2 : (2 : Int) ≤ 2 ^ (N - 1) := by
    calc (2 : Int) = 2 ^ 1 := (pow_one 2).symm
    _ ≤ 2 ^ (N - 1) := pow_le_pow_right₀ (by norm_num) (by omega)
  by_cases hfit : inRangeS N (b ^ e)
  · rw [if_pos hfit]
    exact checked_pow_cs_complete N b e hN (cs_fit_all N hN b hb e hfit)
  · rw [if_neg hfit]
    cases hres : checked_pow (csOps N) b e with
    | none => rfl
    | some r =>
      exfalso
      have hr : r = b ^ e := checked_pow_cs_sound hres
      unfold checked_pow at hres
      by_cases he : e = 0
      · subst he
        rw [pow_zero] at hfit
        exact hfit ⟨by omega, by omega⟩
      · rw [if_neg he] at hres
        cases hstrip : checkedStrip (csOps N).checkedMul b e with
        | none => rw [hstrip] at hres; exact absurd hres (by simp)
        | some p =>
          rw [hstrip] at hres
          have hres2 : (if p.2 = 1 then some p.1 else
              checkedAccLoop (csOps N).checkedMul p.1 p.1 p.2) = some r := hres
          have hpar := checkedStrip_parity e b p (by omega) hstrip
          have hbd : p.1 = b ∨ inRangeS N p.1 := checkedStrip_cs_bound e b p hstrip
          by_cases h1 : p.2 = 1
          · rw [if_pos h1] at hres2
            have hp1 : p.1 = r := Option.some_inj.mp hres2
            rcases hbd with h2 | h2
            · -- r = b is in range, but r = b ^ e is not
              exact hfit (by rw [← hr, ← hp1, h2]; exact hb)
            · exact hfit (by rw [← hr, ← hp1]; exact h2)
          · rw [if_neg h1] at hres2
            have hlt : inRangeS N r :=
              checkedAccLoop_cs_bound p.2 (by omega) p.1 p.1 r hres2
            exact hfit (hr ▸ hlt)

/-! ### Instrumented evaluator: counting multiplications

The control flow of `pow` depends only on the exponent, so the number of
multiplications it performs is captured by running the same loops with an
explicit counter that is incremented at each multiplication. -/

/-- The loop `stripZeros` with a counter: one multiplication per iteration. -/
def stripZerosI {α : Type} (mul : α → α → α) (base : α) (exp cnt : Nat) : α × Nat × Nat :=
  if h : exp % 2 = 0 ∧ 0 < exp then
    stripZerosI mul (mul base base) (exp / 2) (cnt + 1)
  else
    (base, exp, cnt)
termination_by exp
decreasing_by exact Nat.div_lt_self h.2 one_lt_two

/-- The loop `accLoop` with a counter: one multiplication for the squaring, one more
when the low bit of the shifted exponent is set. -/
def accLoopI {α : Type} (mul : α → α → α) (base acc : α) (exp cnt : Nat) : α × Nat :=
  if h : 1 < exp then
    let exp2 := exp / 2
    let base2 := mul base base
    if exp2 % 2 = 1 then accLoopI mul base2 (mul acc base2) exp2 (cnt + 2)
    else accLoopI mul base2 acc exp2 (cnt + 1)
  else (acc, cnt)
termination_by exp
decreasing_by
  all_goals exact Nat.div_lt_self (Nat.lt_of_lt_of_le Nat.zero_lt_one (Nat.le_of_lt h)) one_lt_two

/-- The function `pow` with a counter of the multiplications performed. -/
def powI {α : Type} (ops : PowOps α) (base : α) (exp : Nat) : α × Nat :=
  if exp = 0 then (ops.one, 0)
  else
    let s := stripZerosI ops.mul base exp 0
    if s.2.1 = 1 then (s.1, s.2.2)
    else accLoopI ops.mul s.1 s.1 s.2.1 s.2.2

theorem stripZerosI_fst {α : Type} (mul : α → α → α) :
    ∀ e b c, (stripZerosI mul b e c).1 = (stripZeros mul b e).1 ∧
      (stripZerosI mul b e c).2.1 = (stripZeros mul b e).2 := by
  intro e
  induction e using Nat.strong_induction_on with
  | _ e ih =>
    intro b c
    rw [stripZerosI, stripZeros]
    by_cases hc : e % 2 = 0 ∧ 0 < e
    · rw [dif_pos hc, dif_pos hc]
      exact ih (e / 2) (Nat.div_lt_self hc.2 one_lt_two) (mul b b) (c + 1)
    · rw [dif_neg hc, dif_neg hc]
      exact ⟨rfl, rfl⟩

theorem accLoopI_fst {α : Type} (mul : α → α → α) :
    ∀ e b a c, (accLoopI mul b a e c).1 = accLoop mul b a e := by
  intro e
  induction e using Nat.strong_induction_on with
  | _ e ih =>
    intro b a c
    rw [accLoopI, accLoop]
    by_cases hc : 1 < e
    · rw [dif_pos hc, dif_pos hc]
      show (if e / 2 % 2 = 1 then accLoopI mul (mul b b) (mul a (mul b b)) (e / 2) (c + 2)
          else accLoopI mul (mul b b) a (e / 2) (c + 1)).1 =
        accLoop mul (mul b b) (if e / 2 % 2 = 1 then mul a (mul b b) else a) (e / 2)
      have hdiv : e / 2 < e := by omega
      by_cases hodd : e / 2 % 2 = 1
      · rw [if_pos hodd, if_pos hodd]
        exact ih (e / 2) hdiv (mul b b) (mul a (mul b b)) (c + 2)
      · rw [if_neg hodd, if_neg hodd]
        exact ih (e / 2) hdiv (mul b b) a (c + 1)
    · rw [dif_neg hc, dif_neg hc]

/-- The instrumented evaluator computes the same value as `pow`. -/
theorem powI_fst {α : Type} (ops : PowOps α) (b : α) (e : Nat) :
    (powI ops b e).1 = pow ops b e := by
  unfold powI pow
  by_cases he : e = 0
  · rw [if_pos he, if_pos he]
  · rw [if_neg he, if_neg he]
    obtain ⟨h1, h2⟩ := stripZerosI_fst ops.mul e b 0
    show (if (stripZerosI ops.mul b e 0).2.1 = 1 then ((stripZerosI ops.mul b e 0).1,
          (stripZerosI ops.mul b e 0).2.2)
        else accLoopI ops.mul (stripZerosI ops.mul b e 0).1 (stripZerosI ops.mul b e 0).1
          (stripZerosI ops.mul b e 0).2.1 (stripZerosI ops.mul b e 0).2.2).1 =
      if (stripZeros ops.mul b e).2 = 1 then (stripZeros ops.mul b e).1
        else accLoop ops.mul (stripZeros ops.mul b e).1 (stripZeros ops.mul b e).1
          (stripZeros ops.mul b e).2
    rw [h1, h2]
    by_cases hone : (stripZeros ops.mul b e).2 = 1
    · rw [if_pos hone, if_pos hone]
    · rw [if_neg hone, if_neg hone]
      rw [accLoopI_fst]

theorem stripZerosI_cnt {α : Type} (mul : α → α → α) :
    ∀ e b c, 0 < e →
      (stripZerosI mul b e c).2.2 + Nat.log 2 (stripZerosI mul b e c).2.1 =
        c + Nat.log 2 e ∧
      c ≤ (stripZerosI mul b e c).2.2 ∧ 0 < (stripZerosI mul b e c).2.1 := by
  intro e
  induction e using Nat.strong_induction_on with
  | _ e ih =>
    intro b c he
    rw [stripZerosI]
    by_cases hc : e % 2 = 0 ∧ 0 < e
    · rw [dif_pos hc]
      have he2 : 2 ≤ e := by omega
      have hlog : Nat.log 2 (e / 2) = Nat.log 2 e - 1 := Nat.log_div_base 2 e
      have hlpos : 0 < Nat.log 2 e := Nat.log_pos one_lt_two he2
      obtain ⟨ha, hb, hc2⟩ := ih (e / 2) (by omega) (mul b b) (c + 1) (by omega)
      refine ⟨?_, by omega, hc2⟩
      rw [ha, hlog]
      omega
    · rw [dif_neg hc]
      exact ⟨rfl, Nat.le_refl c, he⟩

theorem accLoopI_cnt {α : Type} (mul : α → α → α) :
    ∀ e b a c, 0 < e → (accLoopI mul b a e c).2 ≤ c + 2 * Nat.log 2 e := by
  intro e
  induction e using Nat.strong_induction_on with
  | _ e ih =>
    intro b a c he
    rw [accLoopI]
    by_cases hc : 1 < e
    · rw [dif_pos hc]
      have hlog : Nat.log 2 (e / 2) = Nat.log 2 e - 1 := Nat.log_div_base 2 e
      have hlpos : 0 < Nat.log 2 e := Nat.log_pos one_lt_two (by omega)
      show (if e / 2 % 2 = 1 then accLoopI mul (mul b b) (mul a (mul b b)) (e / 2) (c + 2)
          else accLoopI mul (mul b b) a (e / 2) (c + 1)).2 ≤ c + 2 * Nat.log 2 e
      by_cases hodd : e / 2 % 2 = 1
      · rw [if_pos hodd]
        have := ih (e / 2) (by omega) (mul b b) (mul a (mul b b)) (c + 2) (by omega)
        rw [hlog] at this
        omega
      · rw [if_neg hodd]
        have := ih (e / 2) (by omega) (mul b b) a (c + 1) (by omega)
        rw [hlog] at this
        omega
    · rw [dif_neg hc]
      exact Nat.le_add_right c _

/-- The number of multiplications `pow` performs is at most `2 * log2 e`. -/
theorem powI_cnt {α : Type} (ops : PowOps α) (b : α) (e : Nat) (he : 1 ≤ e) :
    (powI ops b e).2 ≤ 2 * Nat.log 2 e := by
  unfold powI
  rw [if_neg (by omega : ¬e = 0)]
  obtain ⟨ha, hb, hc⟩ := stripZerosI_cnt ops.mul e b 0 (by omega)
  have hle : Nat.log 2 (stripZerosI ops.mul b e 0).2.1 ≤ Nat.log 2 e := by omega
  show (if (stripZerosI ops.mul b e 0).2.1 = 1 then ((stripZerosI ops.mul b e 0).1,
        (stripZerosI ops.mul b e 0).2.2)
      else accLoopI ops.mul (stripZerosI ops.mul b e 0).1 (stripZerosI ops.mul b e 0).1
        (stripZerosI ops.mul b e 0).2.1 (stripZerosI ops.mul b e 0).2.2).2 ≤
    2 * Nat.log 2 e
  by_cases hone : (stripZerosI ops.mul b e 0).2.1 = 1
  · rw [if_pos hone]
    show (stripZerosI ops.mul b e 0).2.2 ≤ 2 * Nat.log 2 e
    rw [hone, Nat.log_one_right] at ha
    omega
  · rw [if_neg hone]
    have := accLoopI_cnt ops.mul (stripZerosI ops.mul b e 0).2.1
      (stripZerosI ops.mul b e 0).1 (stripZerosI ops.mul b e 0).1
      (stripZerosI ops.mul b e 0).2.2 hc
    omega

/-! ### Operator bindings (the `Pow` trait impls generated by `pow_impl!`) -/

/-- Modelled from the spec: the native fast-power primitive (the concrete
integer type's built-in `pow`, e.g. `u8::pow`) to which the integer
bindings delegate for `u8`/`u16`/`u32` exponents.  The spec describes it
as computing the power under the type's own arithmetic, i.e. the
iterated product of the base. -/
def nativePow {α : Type} (ops : PowOps α) (x : α) (p : Nat) : α := iterMul ops x p

/-- Binding `impl Pow<$rhs> for $t`: both operands owned; the body is
`($method)(self, rhs)`. -/
def powOwnOwn {α : Type} (method : α → Nat → α) (self : α) (rhs : Nat) : α :=
  method self rhs

/-- Binding `impl Pow<&$rhs> for $t`: exponent by reference; the body is
`($method)(self, *rhs)` and dereferencing a read-only reference is the
identity on the value. -/
def powOwnRef {α : Type} (method : α → Nat → α) (self : α) (rhs : Nat) : α :=
  method self rhs

/-- Binding `impl Pow<$rhs> for &$t`: base by reference; `($method)(*self, rhs)`. -/
def powRefOwn {α : Type} (method : α → Nat → α) (self : α) (rhs : Nat) : α :=
  method self rhs

/-- Binding `impl Pow<&$rhs> for &$t`: both by reference; `($method)(*self, *rhs)`. -/
def powRefRef {α : Type} (method : α → Nat → α) (self : α) (rhs : Nat) : α :=
  method self rhs

/-! ### Exponent-one helpers -/

theorem stripZeros_exp_one {α : Type} (mul : α → α → α) (b : α) :
    stripZeros mul b 1 = (b, 1) := by
  rw [stripZeros, dif_neg (by omega : ¬((1 : Nat) % 2 = 0 ∧ 0 < (1 : Nat)))]

theorem checkedStrip_exp_one {α : Type} (cmul : α → α → Option α) (b : α) :
    checkedStrip cmul b 1 = some (b, 1) := by
  rw [checkedStrip, dif_neg (by omega : ¬((1 : Nat) % 2 = 0 ∧ 0 < (1 : Nat)))]

theorem stripZerosI_exp_one {α : Type} (mul : α → α → α) (b : α) (c : Nat) :
    stripZerosI mul b 1 c = (b, 1, c) := by
  rw [stripZerosI, dif_neg (by omega : ¬((1 : Nat) % 2 = 0 ∧ 0 < (1 : Nat)))]

theorem pow_exp_one {α : Type} (ops : PowOps α) (b : α) : pow ops b 1 = b := by
  simp [pow, stripZeros_exp_one]

theorem checked_pow_exp_one {α : Type} (cops : CheckedPowOps α) (b : α) :
    checked_pow cops b 1 = some b := by
  simp [checked_pow, checkedStrip_exp_one]

/-! ### The claims -/

/-- C1: for every base of a fixed-width unsigned (`b < 2 ^ N`) or signed
(`inRangeS N b`) integer type and every non-negative exponent, `pow b e`
equals the iterative product of `b` taken `e` times evaluated under that
type's wrapping overflow semantics; in particular, since `iterMul` is
independent of the squaring strategy, the trailing-zero-stripping early
exit never changes the result. -/
theorem claim_C1 :
    (∀ N b e, b < 2 ^ N → pow (wuOps N) b e = iterMul (wuOps N) b e) ∧
    (∀ N (b : Int) e, 0 < N → inRangeS N b → pow (wsOps N) b e = iterMul (wsOps N) b e) :=
  ⟨fun N b e hb => pow_eq_iterMul_on (wuOps_monoid N) b hb e,
   fun N b e hN hb => pow_eq_iterMul_on (wsOps_monoid N hN) b hb e⟩

theorem claim_C1_witness :
    (200 < 2 ^ 8 ∧ pow (wuOps 8) 200 3 = iterMul (wuOps 8) 200 3) ∧
    (0 < 8 ∧ inRangeS 8 (-5) ∧ pow (wsOps 8) (-5) 3 = iterMul (wsOps 8) (-5) 3) :=
  ⟨⟨by norm_num, claim_C1.1 8 200 3 (by norm_num)⟩,
   ⟨by norm_num, by decide, claim_C1.2 8 (-5) 3 (by norm_num) (by decide)⟩⟩

/-- C2: `checked_pow` returns exactly the mathematical power when it is
representable and `none` otherwise, on both `N`-bit unsigned and `N`-bit
signed (two's-complement) integers: every intermediate along the squaring
path fits iff the final power fits, so `Some (b ^ e)` is returned whenever
all natural intermediates fit and `none` as soon as one would overflow.
Additionally, on signed integers any returned value is the exact
mathematical power for arbitrary `N` and base (no partial or corrupted
result); and the spec's three examples hold: `checked_pow(2i8, 4) = Some 16`,
`checked_pow(7i8, 8) = None`, `checked_pow(7u32, 8) = Some 5764801`. -/
theorem claim_C2 :
    (∀ N b e, 0 < N → b < 2 ^ N →
      checked_pow (cuOps N) b e = if b ^ e < 2 ^ N then some (b ^ e) else none) ∧
    (∀ N (b : Int) e, 2 ≤ N → inRangeS N b →
      checked_pow (csOps N) b e =
        if inRangeS N (b ^ e) then some (b ^ e) else none) ∧
    (∀ (N : Nat) (b : Int) (e : Nat) (r : Int),
      checked_pow (csOps N) b e = some r → r = b ^ e) ∧
    checked_pow (csOps 8) 2 4 = some 16 ∧
    checked_pow (csOps 8) 7 8 = none ∧
    checked_pow (cuOps 32) 7 8 = some 5764801 := by
  refine ⟨fun N b e hN hb => checked_pow_cu_char N b e hN hb,
    fun N b e hN hb => checked_pow_cs_char N b e hN hb,
    fun N b e r h => checked_pow_cs_sound h, ?_, ?_, ?_⟩
  · simp [checked_pow, checkedStrip, checkedAccLoop, csOps, cmulS]
  · simp [checked_pow, checkedStrip, checkedAccLoop, csOps, cmulS]
  · simp [checked_pow, checkedStrip, checkedAccLoop, cuOps, cmulU]

theorem claim_C2_witness :
    (0 < 8 ∧ (3 : Nat) < 2 ^ 8 ∧
      checked_pow (cuOps 8) 3 4 =
        if (3 : Nat) ^ 4 < 2 ^ 8 then some ((3 : Nat) ^ 4) else none) ∧
    (2 ≤ 8 ∧ inRangeS 8 (-2) ∧
      checked_pow (csOps 8) (-2) 7 =
        if inRangeS 8 ((-2 : Int) ^ 7) then some ((-2 : Int) ^ 7) else none) ∧
    (checked_pow (csOps 8) 2 4 = some 16 ∧ (16 : Int) = 2 ^ 4) := by
  refine ⟨⟨by norm_num, by norm_num, claim_C2.1 8 3 4 (by norm_num) (by norm_num)⟩,
    ⟨by norm_num, by decide, claim_C2.2.1 8 (-2) 7 (by norm_num) (by decide)⟩, ?_⟩
  have h := claim_C2.2.2.2.1
  exact ⟨h, claim_C2.2.2.1 8 2 4 16 h⟩

/-- C3: for every base `b` over any operations, `pow b 0` returns the
multiplicative identity and `checked_pow b 0` returns `some` of the
multiplicative identity. -/
theorem claim_C3 :
    (∀ (α : Type) (ops : PowOps α) (b : α), pow ops b 0 = ops.one) ∧
    (∀ (α : Type) (cops : CheckedPowOps α) (b : α), checked_pow cops b 0 = some cops.one) :=
  ⟨fun _ _ _ => rfl, fun _ _ _ => rfl⟩

/-- C4: for every base `b` over any operations, `pow b 1 = b` exactly and
`checked_pow b 1 = some b` (unconditionally, for an arbitrary checked
multiplication, so no overflow can be signalled on that path); and the
instrumented multiplication counter is `0` for exponents `0` and `1`. -/
theorem claim_C4 :
    (∀ (α : Type) (ops : PowOps α) (b : α), pow ops b 1 = b) ∧
    (∀ (α : Type) (cops : CheckedPowOps α) (b : α), checked_pow cops b 1 = some b) ∧
    (∀ (α : Type) (ops : PowOps α) (b : α),
      (powI ops b 0).2 = 0 ∧ (powI ops b 1).2 = 0) :=
  ⟨fun _ ops b => pow_exp_one ops b,
   fun _ cops b => checked_pow_exp_one cops b,
   fun _ ops b => ⟨rfl, by simp [powI, stripZerosI_exp_one]⟩⟩

/-- C5: for every supported base value, the operator form (the `Pow` impl,
which delegates to the native power primitive for `u8`/`u16`/`u32`
exponents and to the free function `pow` for `usize` exponents) agrees
with the free function `pow`, and the four calling shapes (owned/owned,
owned/ref, ref/owned, ref/ref) produce identical results, for both
unsigned and signed wrapping semantics.  (Exponent-width casts
`p as u32` / `p as usize` are value-preserving, so every exponent type is
embedded as `Nat`.) -/
theorem claim_C5 :
    (∀ N b e, b < 2 ^ N →
      (powOwnOwn (nativePow (wuOps N)) b e = pow (wuOps N) b e ∧
       powOwnRef (nativePow (wuOps N)) b e = powOwnOwn (nativePow (wuOps N)) b e ∧
       powRefOwn (nativePow (wuOps N)) b e = powOwnOwn (nativePow (wuOps N)) b e ∧
       powRefRef (nativePow (wuOps N)) b e = powOwnOwn (nativePow (wuOps N)) b e) ∧
      (powOwnOwn (pow (wuOps N)) b e = pow (wuOps N) b e ∧
       powOwnRef (pow (wuOps N)) b e = powOwnOwn (pow (wuOps N)) b e ∧
       powRefOwn (pow (wuOps N)) b e = powOwnOwn (pow (wuOps N)) b e ∧
       powRefRef (pow (wuOps N)) b e = powOwnOwn (pow (wuOps N)) b e)) ∧
    (∀ N (b : Int) e, 0 < N → inRangeS N b →
      powOwnOwn (nativePow (wsOps N)) b e = pow (wsOps N) b e ∧
      powOwnRef (nativePow (wsOps N)) b e = powOwnOwn (nativePow (wsOps N)) b e ∧
      powRefOwn (nativePow (wsOps N)) b e = powOwnOwn (nativePow (wsOps N)) b e ∧
      powRefRef (nativePow (wsOps N)) b e = powOwnOwn (nativePow (wsOps N)) b e) :=
  ⟨fun N b e hb =>
    ⟨⟨(pow_eq_iterMul_on (wuOps_monoid N) b hb e).symm, rfl, rfl, rfl⟩,
     ⟨rfl, rfl, rfl, rfl⟩⟩,
   fun N b e hN hb =>
    ⟨(pow_eq_iterMul_on (wsOps_monoid N hN) b hb e).symm, rfl, rfl, rfl⟩⟩

theorem claim_C5_witness :
    (6 : Nat) < 2 ^ 8 ∧
    ((powOwnOwn (nativePow (wuOps 8)) 6 3 = pow (wuOps 8) 6 3 ∧
      powOwnRef (nativePow (wuOps 8)) 6 3 = powOwnOwn (nativePow (wuOps 8)) 6 3 ∧
      powRefOwn (nativePow (wuOps 8)) 6 3 = powOwnOwn (nativePow (wuOps 8)) 6 3 ∧
      powRefRef (nativePow (wuOps 8)) 6 3 = powOwnOwn (nativePow (wuOps 8)) 6 3) ∧
     (powOwnOwn (pow (wuOps 8)) 6 3 = pow (wuOps 8) 6 3 ∧
      powOwnRef (pow (wuOps 8)) 6 3 = powOwnOwn (pow (wuOps 8)) 6 3 ∧
      powRefOwn (pow (wuOps 8)) 6 3 = powOwnOwn (pow (wuOps 8)) 6 3 ∧
      powRefRef (pow (wuOps 8)) 6 3 = powOwnOwn (pow (wuOps 8)) 6 3)) :=
  ⟨by norm_num, claim_C5.1 8 6 3 (by norm_num)⟩

/-- C6: `checked_pow` follows the control flow of `pow` with each
multiplication replaced by a checked multiplication: whenever the checked
multiplication agrees with an unchecked multiplication on its defined
results, a returned value of `checked_pow` equals the value `pow` computes
with the unchecked multiplications. -/
theorem claim_C6 {α : Type} (cops : CheckedPowOps α) (ops : PowOps α)
    (hone : cops.one = ops.one)
    (hc : ∀ a b x, cops.checkedMul a b = some x → x = ops.mul a b)
    (b : α) (e : Nat) (r : α) (h : checked_pow cops b e = some r) :
    r = pow ops b e :=
  (checked_pow_refines cops ops hone hc b e r h).symm

theorem claim_C6_witness :
    checked_pow (cuOps 8) 3 4 = some 81 ∧ (81 : Nat) = pow natOps 3 4 := by
  have h : checked_pow (cuOps 8) 3 4 = some 81 := by
    simp [checked_pow, checkedStrip, checkedAccLoop, cuOps, cmulU]
  exact ⟨h, claim_C6 (cuOps 8) natOps rfl (fun a b x hx => (cmulU_eq_some hx).1) 3 4 81 h⟩

/-- C7: `pow` and `checked_pow` are total functions of their inputs (the
equations below always have a value; the embedded loops are well-founded in
the exponent), and for `e ≥ 1` the number of multiplications performed by
`pow` is at most `2 * floor(log2 e) + 1` (the instrumented count is in fact
at most `2 * floor(log2 e)`). -/
theorem claim_C7 {α : Type} (ops : PowOps α) (cops : CheckedPowOps α) (b : α) (e : Nat)
    (he : 1 ≤ e) :
    (powI ops b e).2 ≤ 2 * Nat.log 2 e + 1 ∧
    (powI ops b e).1 = pow ops b e ∧
    (∃ v, pow ops b e = v) ∧ (∃ w, checked_pow cops b e = w) :=
  ⟨le_trans (powI_cnt ops b e he) (by omega), powI_fst ops b e, ⟨_, rfl⟩, ⟨_, rfl⟩⟩

theorem claim_C7_witness :
    1 ≤ 5 ∧ ((powI natOps 3 5).2 ≤ 2 * Nat.log 2 5 + 1 ∧
      (powI natOps 3 5).1 = pow natOps 3 5 ∧
      (∃ v, pow natOps 3 5 = v) ∧ (∃ w, checked_pow (cuOps 8) 3 5 = w)) :=
  ⟨by norm_num, claim_C7 natOps (cuOps 8) 3 5 (by norm_num)⟩

/-- C8: the `Pow` operator on wrapping integers (`Wrapping<uN>`,
`Wrapping<iN>`), which binds every exponent width to the generic `pow`
with wrapping multiplication, is total (it is a function; no error channel
exists in its type) and wraps silently: the result is the mathematical
power reduced modulo `2 ^ N`, reinterpreted for signed types. -/
theorem claim_C8 :
    (∀ N b e, b < 2 ^ N → powOwnOwn (pow (wuOps N)) b e = b ^ e % 2 ^ N) ∧
    (∀ N (b : Int) e, 0 < N → inRangeS N b →
      powOwnOwn (pow (wsOps N)) b e = wrapS N (b ^ e)) :=
  ⟨fun N b e hb => pow_wuOps N b hb e, fun N b e hN hb => pow_wsOps N hN b hb e⟩

theorem claim_C8_witness :
    ((3 : Nat) < 2 ^ 8 ∧ powOwnOwn (pow (wuOps 8)) 3 5 = 3 ^ 5 % 2 ^ 8) ∧
    (0 < 8 ∧ inRangeS 8 (-3) ∧ powOwnOwn (pow (wsOps 8)) (-3) 3 = wrapS 8 ((-3) ^ 3)) :=
  ⟨⟨by norm_num, claim_C8.1 8 3 5 (by norm_num)⟩,
   ⟨by norm_num, by decide, claim_C8.2 8 (-3) 3 (by norm_num) (by decide)⟩⟩

/-- C9: under exact (non-overflowing) arithmetic, iterated exponentiation
collapses: `pow (pow b e1) e2 = pow b (e1 * e2)`, over both `Nat` and
`Int`. -/
theorem claim_C9 :
    (∀ (b e1 e2 : Nat), pow natOps (pow natOps b e1) e2 = pow natOps b (e1 * e2)) ∧
    (∀ (b : Int) (e1 e2 : Nat), pow intOps (pow intOps b e1) e2 = pow intOps b (e1 * e2)) := by
  constructor
  · intro b e1 e2
    rw [pow_natOps, pow_natOps, pow_natOps, ← pow_mul]
  · intro b e1 e2
    rw [pow_intOps, pow_intOps, pow_intOps, ← pow_mul]

/-- C10: for exponents `e ≥ 1` neither `pow` nor `checked_pow` ever
evaluates the multiplicative identity (the accumulator is seeded from the
base): the result is identical under any two interpretations of the
identity element, which only influences the exponent-zero path. -/
theorem claim_C10 {α : Type} (ops ops' : PowOps α) (cops cops' : CheckedPowOps α)
    (b : α) (e : Nat) (he : 1 ≤ e) (hmul : ops.mul = ops'.mul)
    (hcmul : cops.checkedMul = cops'.checkedMul) :
    pow ops b e = pow ops' b e ∧ checked_pow cops b e = checked_pow cops' b e := by
  have he0 : ¬e = 0 := by omega
  constructor
  · unfold pow
    rw [if_neg he0, if_neg he0, hmul]
  · unfold checked_pow
    rw [if_neg he0, if_neg he0, hcmul]

theorem claim_C10_witness :
    1 ≤ 3 ∧ (pow natOps 2 3 = pow ⟨99, fun a b => a * b⟩ 2 3 ∧
      checked_pow (cuOps 8) 2 3 = checked_pow ⟨77, cmulU (2 ^ 8)⟩ 2 3) :=
  ⟨by norm_num, claim_C10 natOps ⟨99, fun a b => a * b⟩ (cuOps 8) ⟨77, cmulU (2 ^ 8)⟩ 2 3
    (by norm_num) rfl rfl⟩

end NumTraits
